import Mathlib

/-
Verification of the certify-and-differentiate core of the sdprlayer
repository (src/sdprlayers/layers/sdprlayer.py).

The Python code is shallowly embedded over exact rationals (ℚ).  Matrices
become `Matrix (Fin n) (Fin n) ℚ` or plain index functions `ℕ → ℕ → ℚ`;
numpy batched tensors become lists; Python exceptions and `assert`
statements become `Except String`.  External numerical routines
(`np.linalg.eigvalsh`, `np.linalg.lstsq`, `scipy.sparse.linalg.lsqr`,
`scipy.linalg.qr`) are not re-implemented: the embedding takes their
outputs as explicit inputs, and everything the Python source computes from
those outputs is translated line by line.
-/

namespace SDPR

open Matrix

/-! ### Global tolerance constants (sdprlayer.py lines 23-32) -/

/-- LICQ_TOL = 1e-7 : smallest singular value of the constraint gradient
matrix treated as nonzero when recomputing Lagrange multipliers. -/
def LICQ_TOL : ℚ := 1 / 10000000

/-- ATOL_KKT = 1e-5 : tolerance for the norm of the KKT residual. -/
def ATOL_KKT : ℚ := 1 / 100000

/-- LSQR_TOL = 1e-10 : tolerance for the residuals in the LSQR solve. -/
def LSQR_TOL : ℚ := 1 / 10000000000

/-- ER_MIN = 1e5 : minimum eigenvalue ratio for the tightness check. -/
def ER_MIN : ℚ := 100000

/-! ### Tightness check (SDPRLayer.check_tightness, lines 409-418)

`np.linalg.eigvalsh(X)` is an external routine; the embedding receives its
output `eigs` (the real eigenvalue list of the symmetric matrix X).  The
Python body is
    sorted_eigs = np.sort(np.linalg.eigvalsh(X))
    sorted_eigs = np.abs(sorted_eigs)
    ER = sorted_eigs[-1] / sorted_eigs[-2]
    tight = ER > ER_min
i.e. the eigenvalues are sorted ascending BY SIGNED VALUE and only then
replaced by their absolute values. -/

def check_tightness (eigs : List ℚ) (ERmin : ℚ) : Bool × ℚ :=
  let sortedEigs := List.insertionSort (· ≤ ·) eigs
  let absEigs := sortedEigs.map (fun v => |v|)
  let er := absEigs.getD (absEigs.length - 1) 0 / absEigs.getD (absEigs.length - 2) 0
  (decide (ERmin < er), er)

/-- Modelled from the spec sentence "sort `|eigenvalues(X)|` descending;
`ER = λ₁/λ₂`": the ratio of the two largest eigenvalue magnitudes.  Used
only to compare the spec's wording with `check_tightness`. -/
def tightness_spec (eigs : List ℚ) (ERmin : ℚ) : Bool × ℚ :=
  let absSorted := List.insertionSort (· ≥ ·) (eigs.map (fun v => |v|))
  let er := absSorted.getD 0 0 / absSorted.getD 1 0
  (decide (ERmin < er), er)

/-! ### Forward-pass tightness gating (SDPRLayer.forward, lines 327-379)

Each batch element is represented by the eigenvalue list of its SDP
solution matrix X (the only data `check_tightness` consumes).  The Python
loop is
    alltight = True
    for X in Xs:
        tight, ER = self.check_tightness(X)
        if not tight:
            alltight = False
            break
    if alltight: xs = ...recovered solution... else: xs = None
    return Xs, xs
No exception is raised on non-tightness; `Xs` is returned either way. -/

def allTight : List (List ℚ) → Bool
  | [] => true
  | e :: rest => if (check_tightness e ER_MIN).1 then allTight rest else false

/-- Post-solve part of `forward`: returns the pair (X_batch, x_batch),
where `recovered` stands for the recovered-solution tensor computed when
every batch element is tight. -/
def forwardResult {α : Type} (batch : List (List ℚ)) (recovered : α) :
    List (List ℚ) × Option α :=
  (batch, if allTight batch then some recovered else none)

/-! ### Input symmetrization (forward line 252, make_symmetric lines 468-469)

    def make_symmetric(X): return (X + X.transpose(-1, -2)) / 2
applied to every (homogenized) parameter value before any solver sees it:
    param_vals_h = [make_symmetric(param_val) for param_val in param_vals_h]
-/

def make_symmetric {n : ℕ} (X : Matrix (Fin n) (Fin n) ℚ) : Matrix (Fin n) (Fin n) ℚ :=
  ((1 : ℚ) / 2) • (X + X.transpose)

/-- The list comprehension at forward line 252. -/
def forwardSymParams {n : ℕ} (ps : List (Matrix (Fin n) (Fin n) ℚ)) :
    List (Matrix (Fin n) (Fin n) ℚ) :=
  ps.map make_symmetric

/-! ### Scatter of compacted per-constraint values (backward lines 570-583, 607-614)

Both the recomputed multipliers and the adjoint-solve Δy block are read
sequentially from a compacted vector (`vals cnt`) while walking the full
constraint ordering, writing `0` at indices listed in `redundant_inds`:
    cnt = 0
    for i, ... in enumerate(constraints):
        if i not in redundant_inds: out.append(vals[cnt]); cnt += 1
        else: out.append(0.0)
-/

def scatterAux (redund : List ℕ) (vals : ℕ → ℚ) : ℕ → ℕ → ℕ → List ℚ
  | _, _, 0 => []
  | i, cnt, rem + 1 =>
      if i ∈ redund then (0 : ℚ) :: scatterAux redund vals (i + 1) cnt rem
      else vals cnt :: scatterAux redund vals (i + 1) (cnt + 1) rem

def scatterNR (redund : List ℕ) (vals : ℕ → ℚ) (nC : ℕ) : List ℚ :=
  scatterAux redund vals 0 0 nC

/-- Number of non-redundant constraint indices in the window [i, i+j). -/
def cntNR (redund : List ℕ) : ℕ → ℕ → ℕ
  | _, 0 => 0
  | i, j + 1 => (if i ∈ redund then 0 else 1) + cntNR redund (i + 1) j

/-! ### Multiplier recomputation (DiffQCQP.backward lines 556-592)

External pieces: `np.linalg.lstsq(G_r.T, -q_bar, rcond=licq_tol)` is
numpy's effective-rank least-squares solver; the embedding records the
exact arguments handed to it (`lstsqSystem`) and receives its solution
vector `sol` as an input.  Everything after the call is translated:
scattering `sol` into `all_mults` with zeros at redundant indices,
re-assembling the certificate H = Q + Σᵢ all_mults[i]·Aᵢ, and the hard
`assert np.linalg.norm(H_r @ x) < ATOL_KKT`.  The norm comparison is
phrased with squares: for the nonnegative tolerance ATOL_KKT,
‖v‖ < t  ⟺  Σ vᵢ² < t², which avoids irrational square roots. -/

/-- Rows x^T A_i of the constraint-gradient matrix G (lines 543-553). -/
def constraintGradRows {n : ℕ} (x : Fin n → ℚ) (As : List (Matrix (Fin n) (Fin n) ℚ)) :
    List (Fin n → ℚ) :=
  As.map (fun A => Matrix.vecMul x A)

/-- Keep only entries whose index is not in `redund` (the rows of G_r). -/
def selectNonRedundant {α : Type} (redund : List ℕ) (l : List α) : List α :=
  (l.enum.filter (fun pr => decide (pr.1 ∉ redund))).map Prod.snd

/-- Arguments of the `np.linalg.lstsq` call at line 566: the matrix G_rᵀ
(represented by the list of rows of G_r), the right-hand side -Q·x, and
the effective-rank cutoff rcond = licq_tol. -/
def lstsqSystem {n : ℕ} (Q : Matrix (Fin n) (Fin n) ℚ)
    (As : List (Matrix (Fin n) (Fin n) ℚ)) (redund : List ℕ) (x : Fin n → ℚ)
    (licq : ℚ) : List (Fin n → ℚ) × (Fin n → ℚ) × ℚ :=
  (selectNonRedundant redund (constraintGradRows x As), -(Q.mulVec x), licq)

/-- `all_mults` of lines 572-583: the lstsq solution scattered over the
full constraint ordering with zeros at redundant slots. -/
def recomputedMults (redund : List ℕ) (sol : List ℚ) (nC : ℕ) : List ℚ :=
  scatterNR redund (fun c => sol.getD c 0) nC

/-- H_r of lines 571-584: `H_list = [Q]; H_list.append(A * all_mults[i])
for each constraint; H_r = sum(H_list)`. -/
def assembleH {n : ℕ} (Q : Matrix (Fin n) (Fin n) ℚ)
    (As : List (Matrix (Fin n) (Fin n) ℚ)) (ms : List ℚ) : Matrix (Fin n) (Fin n) ℚ :=
  Q + ((As.zip ms).map (fun pr => pr.2 • pr.1)).sum

/-- Squared Euclidean norm (‖v‖² in exact arithmetic). -/
def normSq {n : ℕ} (v : Fin n → ℚ) : ℚ :=
  Finset.univ.sum (fun i => v i ^ 2)

def kktErrMsg : String :=
  "KKT conditions cannot be satisfied! Try increasing the tolerance for the LICQ condition constraint removal."

/-- The multiplier-recomputation block entered when `compute_multipliers`
is set or no multipliers were supplied: either the scattered multipliers
together with the certificate H_r, or the AssertionError of line 585. -/
def multiplierRecompute {n : ℕ} (Q : Matrix (Fin n) (Fin n) ℚ)
    (As : List (Matrix (Fin n) (Fin n) ℚ)) (redund : List ℕ) (x : Fin n → ℚ)
    (sol : List ℚ) : Except String (List ℚ × Matrix (Fin n) (Fin n) ℚ) :=
  let ms := recomputedMults redund sol As.length
  let H := assembleH Q As ms
  if normSq (H.mulVec x) < ATOL_KKT ^ 2 then Except.ok (ms, H)
  else Except.error kktErrMsg

/-- The remainder of `backward` runs only when the assertion passed; a
failed assertion aborts the call, so no gradient of any form is produced.
`mk` stands for the gradient construction of lines 589-645. -/
def backwardWithRecompute {n : ℕ} (Q : Matrix (Fin n) (Fin n) ℚ)
    (As : List (Matrix (Fin n) (Fin n) ℚ)) (redund : List ℕ) (x : Fin n → ℚ)
    (sol : List ℚ)
    (mk : List ℚ × Matrix (Fin n) (Fin n) ℚ → List (Matrix (Fin n) (Fin n) ℚ)) :
    Except String (List (Matrix (Fin n) (Fin n) ℚ)) :=
  (multiplierRecompute Q As redund x sol).map mk

/-! ### Gradient assembly from the adjoint solve (backward lines 600-645)

`scipy.sparse.linalg.lsqr(M.T, dz_bar)` is external; its solution vector
is the input `dsol` (= `dy_bar` in the source).  The source then takes
    dy_bar_1 = dy_bar[:nvars]                      (Δx)
    dy_bar_2 = scatter of dy_bar[nvars + cnt]      (Δy, zeros at redundant)
    dH_bar   = 2 * x @ dy_bar_1.T                  (objective gradient)
    dA_quad  = x @ x.T
    dA       = dH_bar * mults[ind] + dA_quad * dy_bar_2[ind]
-/

/-- dy_bar_2 of lines 607-614. -/
def dyBar2 (redund : List ℕ) (dsol : List ℚ) (nvars nC : ℕ) : List ℚ :=
  scatterNR redund (fun c => dsol.getD (nvars + c) 0) nC

/-- dH_bar of line 617: 2 · x · Δxᵀ as an outer product. -/
def objectiveGrad {n : ℕ} (x : Fin n → ℚ) (dsol : List ℚ) : Matrix (Fin n) (Fin n) ℚ :=
  (2 : ℚ) • Matrix.vecMulVec x (fun j : Fin n => dsol.getD j 0)

/-- dA_quad of line 619: x · xᵀ. -/
def quadGrad {n : ℕ} (x : Fin n → ℚ) : Matrix (Fin n) (Fin n) ℚ :=
  Matrix.vecMulVec x x

/-- dA of line 641 for the parameterized constraint with full-ordering
index `ind`. -/
def constraintGradOut {n : ℕ} (x : Fin n → ℚ) (dsol : List ℚ) (redund : List ℕ)
    (nvars nC : ℕ) (mults : List ℚ) (ind : ℕ) : Matrix (Fin n) (Fin n) ℚ :=
  mults.getD ind 0 • objectiveGrad x dsol +
    (dyBar2 redund dsol nvars nC).getD ind 0 • quadGrad x

/-! ### KKT Jacobian linear operator (make_jac_linop, lines 650-673)

    M = 2 * [[H, G.T], [G_r, 0]]
    matvec(x)  = 2 * [H x₁ + G.T x₂ ; G_r x₁]
    rmatvec(x) = 2 * [H x₁ + G_r.T x₂ ; G x₁]
Vectors are represented as pairs (variable block, multiplier block). -/

def jacMatvec {n p q : ℕ} (H : Matrix (Fin n) (Fin n) ℚ) (G : Matrix (Fin p) (Fin n) ℚ)
    (Gr : Matrix (Fin q) (Fin n) ℚ) (u : (Fin n → ℚ) × (Fin p → ℚ)) :
    (Fin n → ℚ) × (Fin q → ℚ) :=
  ((2 : ℚ) • (H.mulVec u.1 + G.transpose.mulVec u.2), (2 : ℚ) • Gr.mulVec u.1)

def jacRmatvec {n p q : ℕ} (H : Matrix (Fin n) (Fin n) ℚ) (G : Matrix (Fin p) (Fin n) ℚ)
    (Gr : Matrix (Fin q) (Fin n) ℚ) (v : (Fin n → ℚ) × (Fin q → ℚ)) :
    (Fin n → ℚ) × (Fin p → ℚ) :=
  ((2 : ℚ) • (H.mulVec v.1 + Gr.transpose.mulVec v.2), (2 : ℚ) • G.mulVec v.1)

/-- Euclidean inner product on block vectors. -/
def dot2 {n p : ℕ} (u v : (Fin n → ℚ) × (Fin p → ℚ)) : ℚ :=
  Matrix.dotProduct u.1 v.1 + Matrix.dotProduct u.2 v.2

/-! ### Gradient collection and redundancy rejection (backward lines 632-645)

    param_grads = []
    if ctx.param_dict["objective"]: param_grads.append(dH_bar)
    for ind in ctx.param_dict["constraints"]:
        if ind in ctx.redundant_inds:
            raise ValueError("Cannot compute derivative of redundant constraint")
        else:
            param_grads.append(dA)
-/

def redundErrMsg : String := "Cannot compute derivative of redundant constraint"

def collectConstrGrads {M : Type} (redund : List ℕ) (gradFor : ℕ → M) :
    List ℕ → Except String (List M)
  | [] => Except.ok []
  | ind :: rest =>
      if ind ∈ redund then Except.error redundErrMsg
      else
        match collectConstrGrads redund gradFor rest with
        | Except.ok gs => Except.ok (gradFor ind :: gs)
        | Except.error e => Except.error e

def collectParamGrads {M : Type} (objParam : Bool) (objGrad : M) (redund : List ℕ)
    (gradFor : ℕ → M) (inds : List ℕ) : Except String (List M) :=
  match collectConstrGrads redund gradFor inds with
  | Except.ok gs => Except.ok ((if objParam then [objGrad] else []) ++ gs)
  | Except.error e => Except.error e

/-! ### MOSEK-path parameter assignment (forward lines 240-273)

After the dimension-check loop `for i in range(len(param_vals_h)): ...`
the Python name `i` keeps its final value `len(param_vals_h) - 1`.  The
external-solve block then runs
    for iParam in range(len(parameters)):
        parameters[iParam].value = param_vals_h[i][iBatch]...
so every parameter slot is assigned `param_vals_h[len - 1]`, the last
caller-supplied value (the loop body uses `i`, not `iParam`). -/

def mosekAssignParams {M : Type} (paramVals : List M) (d : M) : List M :=
  paramVals.map (fun _ => paramVals.getD (paramVals.length - 1) d)

/-! ### Constructor handling of the constraints list (SDPRLayer.__init__, lines 84-132)

Python stores the caller's list by reference (`self.constr_list =
constraints`) and then overwrites `None` entries in place with freshly
created `cp.Parameter` placeholders; non-None entries are left untouched
(with homogenize=False the else-branch is `continue`).  The in-place
mutation is modelled by state passing: `initConstrList` returns the list
contents that the caller's aliased list object holds after `__init__`,
together with the number of constraint parameter slots created. -/

inductive PyConstrEntry (M : Type) where
  | pynone : PyConstrEntry M
  | pyparam : PyConstrEntry M
  | pymat : M → PyConstrEntry M

def isPyNone {M : Type} : PyConstrEntry M → Bool
  | PyConstrEntry.pynone => true
  | _ => false

def initConstrList {M : Type} : List (PyConstrEntry M) → List (PyConstrEntry M) × ℕ
  | [] => ([], 0)
  | PyConstrEntry.pynone :: rest =>
      let r := initConstrList rest
      (PyConstrEntry.pyparam :: r.1, r.2 + 1)
  | e :: rest =>
      let r := initConstrList rest
      (e :: r.1, r.2)

/-! ### Nullspace via pivoted QR (get_nullspace, lines 699-731, method="qrp")

`scipy.linalg.qr(A, pivoting=True, mode="economic")` is external; the
embedding receives its output: the k×n triangular factor `R`, the m×k
factor `Qm`, and the column permutation `p` (with inverse `pinv`),
satisfying A[:, p c] = (Qm·R)[:, c].  `scipy.linalg.solve_triangular`
is likewise external; its output `Z` satisfies R11·Z = R12.  Matrices are
plain index functions so that the block splitting of the source

    S = np.abs(np.diag(R)); rank = np.sum(S > tolerance)
    R1 = R[:rank, :]; R11, R12 = R1[:, :rank], R1[:, rank:]
    N = np.vstack([la.solve_triangular(R11, R12), -np.eye(R12.shape[1])])
    basis = np.zeros(N.T.shape); basis[:, P] = N.T

translates without dependent-dimension bookkeeping. -/

/-- `rank = np.sum(np.abs(np.diag(R)) > tolerance)`. -/
def qrpRank (k : ℕ) (R : ℕ → ℕ → ℚ) (tol : ℚ) : ℕ :=
  ((Finset.range k).filter (fun j => tol < |R j j|)).card

/-- The matrix N = vstack([R11⁻¹·R12, -I]) with `Z` the triangular-solve
output: rows below `r` hold the negative identity block. -/
def nullN (r : ℕ) (Z : ℕ → ℕ → ℚ) : ℕ → ℕ → ℚ :=
  fun i j => if i < r then Z i j else if i = r + j then -1 else 0

structure NullspaceOut where
  rows : ℕ
  basis : ℕ → ℕ → ℚ

/-- `get_nullspace(A, method="qrp", tolerance=tol)`: the basis has
`n - rank` rows and its columns are un-permuted via `basis[:, P] = N.T`,
i.e. column `P c` of the basis is row `c` of N. -/
def get_nullspace (k n : ℕ) (R Z : ℕ → ℕ → ℚ) (pinv : ℕ → ℕ) (tol : ℚ) :
    NullspaceOut :=
  let r := qrpRank k R tol
  { rows := n - r, basis := fun j c => nullN r Z (pinv c) j }

/-! ### Concrete data for witnesses -/

/-- 2×2 all-ones matrix, rank 1: witness input for the nullspace claim. -/
def Awit : ℕ → ℕ → ℚ := fun _ _ => 1

def Qwit : ℕ → ℕ → ℚ := fun _ t => if t = 0 then 1 else 0

def Rwit : ℕ → ℕ → ℚ := fun i _ => if i = 0 then 1 else 0

def Zwit : ℕ → ℕ → ℚ := fun _ _ => 1

/-- Asymmetric 2×2 matrix used to exercise the symmetrization claim. -/
def Masym : Matrix (Fin 2) (Fin 2) ℚ := !![1, 2; 3, 4]

/-! ## Helper lemmas -/

theorem allTight_eq_false_iff (batch : List (List ℚ)) :
    allTight batch = false ↔ ∃ e ∈ batch, (check_tightness e ER_MIN).1 = false := by
  induction batch with
  | nil => simp [allTight]
  | cons e rest ih =>
    cases hb : (check_tightness e ER_MIN).1 with
    | false =>
      simp only [allTight, hb, if_false]
      exact ⟨fun _ => ⟨e, List.mem_cons_self e rest, hb⟩, fun _ => rfl⟩
    | true =>
      simp only [allTight, hb, if_true, ih, List.exists_mem_cons_iff]
      constructor
      · exact fun h => Or.inr h
      · rintro (h | h)
        · exact absurd h (by simp)
        · exact h

theorem scatterAux_length (redund : List ℕ) (vals : ℕ → ℚ) :
    ∀ rem i cnt, (scatterAux redund vals i cnt rem).length = rem := by
  intro rem
  induction rem with
  | zero => intro i cnt; rfl
  | succ rem ih =>
    intro i cnt
    by_cases hi : i ∈ redund
    · simp [scatterAux, hi, ih]
    · simp [scatterAux, hi, ih]

theorem scatterAux_getD (redund : List ℕ) (vals : ℕ → ℚ) :
    ∀ rem i cnt j, j < rem →
      (scatterAux redund vals i cnt rem).getD j 0 =
        if (i + j) ∈ redund then 0 else vals (cnt + cntNR redund i j) := by
  intro rem
  induction rem with
  | zero => intro i cnt j hj; exact absurd hj (Nat.not_lt_zero j)
  | succ rem ih =>
    intro i cnt j hj
    by_cases hi : i ∈ redund
    · cases j with
      | zero => simp [scatterAux, hi, cntNR]
      | succ j' =>
        have hrec := ih (i + 1) cnt j' (by omega)
        simp only [scatterAux, hi, if_true, List.getD_cons_succ]
        rw [hrec, show i + 1 + j' = i + (j' + 1) by omega]
        by_cases h2 : (i + (j' + 1)) ∈ redund
        · simp [h2]
        · simp [h2, cntNR, hi]
    · cases j with
      | zero => simp [scatterAux, hi, cntNR]
      | succ j' =>
        have hrec := ih (i + 1) (cnt + 1) j' (by omega)
        simp only [scatterAux, hi, if_false, List.getD_cons_succ]
        rw [hrec, show i + 1 + j' = i + (j' + 1) by omega]
        by_cases h2 : (i + (j' + 1)) ∈ redund
        · simp [h2]
        · simp only [h2, if_false, cntNR, hi, if_true]
          congr 1
          omega

theorem scatterNR_getD (redund : List ℕ) (vals : ℕ → ℚ) (nC j : ℕ) (hj : j < nC) :
    (scatterNR redund vals nC).getD j 0 =
      if j ∈ redund then 0 else vals (cntNR redund 0 j) := by
  have h := scatterAux_getD redund vals nC 0 0 j hj
  simpa [scatterNR] using h

theorem recomputedMults_length (redund : List ℕ) (sol : List ℚ) (nC : ℕ) :
    (recomputedMults redund sol nC).length = nC :=
  scatterAux_length redund _ nC 0 0

theorem zip_smul_sum {n : ℕ} :
    ∀ (As : List (Matrix (Fin n) (Fin n) ℚ)) (ms : List ℚ), ms.length = As.length →
      ((As.zip ms).map (fun pr => pr.2 • pr.1)).sum =
        ∑ i ∈ Finset.range As.length, ms.getD i 0 • As.getD i 0 := by
  intro As
  induction As with
  | nil => intro ms h; simp
  | cons A rest ih =>
    intro ms h
    cases ms with
    | nil => simp at h
    | cons m mrest =>
      simp only [List.zip_cons_cons, List.map_cons, List.sum_cons, List.length_cons]
      rw [Finset.sum_range_succ']
      simp only [List.getD_cons_succ, List.getD_cons_zero]
      rw [ih mrest (by simpa using h)]
      exact add_comm _ _

/-! ## Claim theorems -/

/-- Claim C1: in `forward`, the recovered-vector output `x_batch` is
`None` exactly when at least one batch element fails the tightness test
(`check_tightness` with the default threshold `ER_MIN`); no exception is
raised in that case, and the SDP solution batch `X_batch` is still
returned as the first output. -/
theorem C1_xbatch_none_iff {α : Type} (batch : List (List ℚ)) (recovered : α) :
    ((forwardResult batch recovered).2 = none ↔
      ∃ e ∈ batch, (check_tightness e ER_MIN).1 = false) ∧
    (forwardResult batch recovered).1 = batch := by
  have key := allTight_eq_false_iff batch
  refine ⟨?_, rfl⟩
  cases h : allTight batch with
  | true =>
    simp only [forwardResult, h, if_true]
    constructor
    · intro hc; exact absurd hc (by simp)
    · intro hex
      have hf := key.mpr hex
      rw [h] at hf
      exact absurd hf (by simp)
  | false =>
    simp only [forwardResult, h, if_false]
    exact ⟨fun _ => key.mp h, fun _ => rfl⟩

/-- Claim C2: every parameter value handed onward by `forward` is the
symmetrization `(A+Aᵀ)/2` of the caller-supplied matrix `A`; the result
is exactly symmetric, and a symmetric input is passed through unchanged. -/
theorem C2_symmetrization {n : ℕ} (ps : List (Matrix (Fin n) (Fin n) ℚ)) (i : ℕ)
    (hi : i < ps.length) :
    (forwardSymParams ps).getD i 0 = ((1 : ℚ) / 2) • (ps.getD i 0 + (ps.getD i 0)ᵀ) ∧
    ((forwardSymParams ps).getD i 0)ᵀ = (forwardSymParams ps).getD i 0 ∧
    ((ps.getD i 0)ᵀ = ps.getD i 0 → (forwardSymParams ps).getD i 0 = ps.getD i 0) := by
  have hi2 : i < (forwardSymParams ps).length := by
    simpa [forwardSymParams] using hi
  have hmap : (forwardSymParams ps).getD i 0 = make_symmetric (ps.getD i 0) := by
    rw [List.getD_eq_getElem _ _ hi2, List.getD_eq_getElem _ _ hi]
    exact List.getElem_map _
  refine ⟨hmap, ?_, ?_⟩
  · rw [hmap]
    unfold make_symmetric
    rw [Matrix.transpose_smul, Matrix.transpose_add, Matrix.transpose_transpose,
      add_comm]
  · intro hsym
    rw [hmap]
    unfold make_symmetric
    rw [hsym, smul_add]
    ext a b
    simp only [Matrix.add_apply, Matrix.smul_apply, smul_eq_mul]
    ring

/-- Witness for C2 at the concrete asymmetric input `Masym`. -/
theorem C2_symmetrization_witness :
    (forwardSymParams [Masym]).getD 0 0 =
      ((1 : ℚ) / 2) • ([Masym].getD 0 0 + ([Masym].getD 0 0)ᵀ) ∧
    ((forwardSymParams [Masym]).getD 0 0)ᵀ = (forwardSymParams [Masym]).getD 0 0 ∧
    (([Masym].getD 0 0)ᵀ = [Masym].getD 0 0 →
      (forwardSymParams [Masym]).getD 0 0 = [Masym].getD 0 0) :=
  C2_symmetrization [Masym] 0 (by simp)

/-- Counterexample to claim C3 as stated: `check_tightness` does not take
the two largest eigenvalue magnitudes.  For eigenvalues (-10⁶, 1, 2) it
sorts by signed value first, so ER = |2|/|1| = 2 and tight = false, while
the two largest magnitudes give ER = 10⁶/2 = 5·10⁵ and tight = true at
the default ER_MIN = 10⁵. -/
theorem C3_counterexample :
    (check_tightness [-1000000, 1, 2] ER_MIN).2 = 2 ∧
    (tightness_spec [-1000000, 1, 2] ER_MIN).2 = 500000 ∧
    (check_tightness [-1000000, 1, 2] ER_MIN).1 = false ∧
    (tightness_spec [-1000000, 1, 2] ER_MIN).1 = true := by
  refine ⟨?_, ?_, ?_, ?_⟩ <;>
    norm_num [check_tightness, tightness_spec, ER_MIN, List.insertionSort,
      List.orderedInsert]

/-- Claim C3 (amended): for a positive-semidefinite `X` — every eigenvalue
nonnegative, the situation of every SDP solution the layer checks —
`check_tightness` does compute ER as the ratio of the two largest
eigenvalue magnitudes and returns tight = (ER > ER_MIN) with
ER_MIN = 10⁵; for indefinite `X` the code instead sorts by signed value
before taking absolute values. -/
theorem C3_tightness_psd (eigs : List ℚ) (hlen : 2 ≤ eigs.length)
    (hpos : ∀ v ∈ eigs, 0 ≤ v) :
    check_tightness eigs ER_MIN = tightness_spec eigs ER_MIN ∧
    ER_MIN = 100000 := by
  haveI : IsAntisymm ℚ (· ≥ ·) := ⟨fun _ _ h1 h2 => le_antisymm h2 h1⟩
  set s := List.insertionSort (· ≤ ·) eigs with hs_def
  have hs_perm : List.Perm s eigs := List.perm_insertionSort _ _
  have hs_sorted : s.Sorted (· ≤ ·) := List.sorted_insertionSort _ _
  have hLs : s.length = eigs.length := hs_perm.length_eq
  have habs_s : s.map (fun v => |v|) = s := by
    have h1 : ∀ v ∈ s, |v| = v := fun v hv =>
      abs_of_nonneg (hpos v (hs_perm.mem_iff.mp hv))
    calc s.map (fun v => |v|) = s.map id := List.map_congr_left h1
    _ = s := List.map_id s
  have habs_e : eigs.map (fun v => |v|) = eigs := by
    have h1 : ∀ v ∈ eigs, |v| = v := fun v hv => abs_of_nonneg (hpos v hv)
    calc eigs.map (fun v => |v|) = eigs.map id := List.map_congr_left h1
    _ = eigs := List.map_id eigs
  have ht_eq : List.insertionSort (· ≥ ·) (eigs.map (fun v => |v|)) = s.reverse := by
    rw [habs_e]
    refine List.eq_of_perm_of_sorted ?_ (List.sorted_insertionSort _ _)
      (List.pairwise_reverse.mpr hs_sorted)
    exact (List.perm_insertionSort _ _).trans (hs_perm.symm.trans s.reverse_perm.symm)
  have h0 : 0 < s.length := by omega
  have h1 : 1 < s.length := by omega
  have h0r : 0 < s.reverse.length := by simpa using h0
  have h1r : 1 < s.reverse.length := by simpa using h1
  have hlast : s.reverse.getD 0 0 = s.getD (s.length - 1) 0 := by
    rw [List.getD_eq_getElem _ _ h0r, List.getD_eq_getElem _ _ (by omega)]
    simpa using List.getElem_reverse (l := s) (i := 0) h0r
  have hsnd : s.reverse.getD 1 0 = s.getD (s.length - 2) 0 := by
    rw [List.getD_eq_getElem _ _ h1r, List.getD_eq_getElem _ _ (by omega)]
    have h := List.getElem_reverse (l := s) (i := 1) h1r
    simpa [show s.length - 1 - 1 = s.length - 2 by omega] using h
  refine ⟨?_, rfl⟩
  simp only [check_tightness, tightness_spec]
  rw [ht_eq, ← hs_def, habs_s, hlast, hsnd]

/-- Witness for C3 (amended) at the nonnegative spectrum (1, 2). -/
theorem C3_tightness_psd_witness :
    check_tightness [1, 2] ER_MIN = tightness_spec [1, 2] ER_MIN ∧
    ER_MIN = 100000 :=
  C3_tightness_psd [1, 2] (by decide) (by decide)

/-- Claim C4: when multipliers are recomputed, the data handed to the
least-squares routine is exactly (G_rᵀ, -Q·x, rcond = licq_tol); its
solution is scattered so that every redundant constraint receives
multiplier exactly 0 while non-redundant constraints consume the solution
entries in order; the certificate is reassembled as H = Q + Σᵢ yᵢAᵢ; and
if ‖H·x‖ is not below ATOL_KKT = 1e-5 the call fails with the hard
assertion (so no gradient of any kind is produced). -/
theorem C4_multiplier_recompute {n : ℕ} (Q : Matrix (Fin n) (Fin n) ℚ)
    (As : List (Matrix (Fin n) (Fin n) ℚ)) (redund : List ℕ) (x : Fin n → ℚ)
    (sol : List ℚ) (licq : ℚ)
    (mk : List ℚ × Matrix (Fin n) (Fin n) ℚ → List (Matrix (Fin n) (Fin n) ℚ)) :
    lstsqSystem Q As redund x licq =
      (selectNonRedundant redund (constraintGradRows x As), -(Q.mulVec x), licq) ∧
    (∀ i, i < As.length → i ∈ redund →
      (recomputedMults redund sol As.length).getD i 0 = 0) ∧
    (∀ i, i < As.length → i ∉ redund →
      (recomputedMults redund sol As.length).getD i 0 = sol.getD (cntNR redund 0 i) 0) ∧
    assembleH Q As (recomputedMults redund sol As.length) =
      Q + ∑ i ∈ Finset.range As.length,
        (recomputedMults redund sol As.length).getD i 0 • As.getD i 0 ∧
    (¬ normSq ((assembleH Q As (recomputedMults redund sol As.length)).mulVec x)
        < ATOL_KKT ^ 2 →
      multiplierRecompute Q As redund x sol = Except.error kktErrMsg ∧
      ∀ gs, backwardWithRecompute Q As redund x sol mk ≠ Except.ok gs) ∧
    ATOL_KKT = 1 / 100000 := by
  refine ⟨rfl, ?_, ?_, ?_, ?_, rfl⟩
  · intro i hi hmem
    rw [recomputedMults, scatterNR_getD _ _ _ _ hi, if_pos hmem]
  · intro i hi hmem
    rw [recomputedMults, scatterNR_getD _ _ _ _ hi, if_neg hmem]
  · rw [assembleH, zip_smul_sum As _ (recomputedMults_length redund sol As.length)]
  · intro hfail
    have h1 : multiplierRecompute Q As redund x sol = Except.error kktErrMsg := by
      simp only [multiplierRecompute]
      rw [if_neg hfail]
    refine ⟨h1, fun gs => ?_⟩
    simp [backwardWithRecompute, h1, Except.map]

/-- Witness for C4 at a concrete 1×1 instance with one constraint. -/
theorem C4_multiplier_recompute_witness :
    lstsqSystem (!![(1 : ℚ)]) [!![(1 : ℚ)]] [] ![1] LICQ_TOL =
      (selectNonRedundant [] (constraintGradRows ![1] [!![(1 : ℚ)]]),
        -((!![(1 : ℚ)]).mulVec ![1]), LICQ_TOL) ∧
    (∀ i, i < [!![(1 : ℚ)]].length → i ∈ ([] : List ℕ) →
      (recomputedMults [] [-1] [!![(1 : ℚ)]].length).getD i 0 = 0) ∧
    (∀ i, i < [!![(1 : ℚ)]].length → i ∉ ([] : List ℕ) →
      (recomputedMults [] [-1] [!![(1 : ℚ)]].length).getD i 0 =
        [(-1 : ℚ)].getD (cntNR [] 0 i) 0) ∧
    assembleH (!![(1 : ℚ)]) [!![(1 : ℚ)]] (recomputedMults [] [-1] [!![(1 : ℚ)]].length) =
      !![(1 : ℚ)] + ∑ i ∈ Finset.range [!![(1 : ℚ)]].length,
        (recomputedMults [] [-1] [!![(1 : ℚ)]].length).getD i 0 • [!![(1 : ℚ)]].getD i 0 ∧
    (¬ normSq ((assembleH (!![(1 : ℚ)]) [!![(1 : ℚ)]]
          (recomputedMults [] [-1] [!![(1 : ℚ)]].length)).mulVec ![1])
        < ATOL_KKT ^ 2 →
      multiplierRecompute (!![(1 : ℚ)]) [!![(1 : ℚ)]] [] ![1] [-1] =
        Except.error kktErrMsg ∧
      ∀ gs, backwardWithRecompute (!![(1 : ℚ)]) [!![(1 : ℚ)]] [] ![1] [-1]
        (fun _ => []) ≠ Except.ok gs) ∧
    ATOL_KKT = 1 / 100000 :=
  C4_multiplier_recompute (!![(1 : ℚ)]) [!![(1 : ℚ)]] [] ![1] [-1] LICQ_TOL (fun _ => [])

/-- Claim C5: for each batch element, with Δ the LSQR solution split into
Δx (first n_vars entries) and Δy (scattered into full constraint ordering
with zeros at redundant slots), the objective gradient is 2·x·Δxᵀ and the
gradient of a parameterized non-redundant constraint with index `ind` is
2·x·Δxᵀ·y_ind + x·xᵀ·Δy_ind. -/
theorem C5_backward_grads {n : ℕ} (x : Fin n → ℚ) (dsol : List ℚ) (redund : List ℕ)
    (nC : ℕ) (mults : List ℚ) :
    (∀ i j, objectiveGrad x dsol i j = 2 * x i * dsol.getD (j : ℕ) 0) ∧
    (∀ i, i < nC → i ∈ redund → (dyBar2 redund dsol n nC).getD i 0 = 0) ∧
    (∀ i, i < nC → i ∉ redund →
      (dyBar2 redund dsol n nC).getD i 0 = dsol.getD (n + cntNR redund 0 i) 0) ∧
    (∀ ind, ind < nC → ind ∉ redund → ∀ i j,
      constraintGradOut x dsol redund n nC mults ind i j =
        2 * x i * dsol.getD (j : ℕ) 0 * mults.getD ind 0 +
        x i * x j * dsol.getD (n + cntNR redund 0 ind) 0) := by
  refine ⟨?_, ?_, ?_, ?_⟩
  · intro i j
    simp only [objectiveGrad, Matrix.smul_apply, Matrix.vecMulVec_apply, smul_eq_mul]
    ring
  · intro i hi hmem
    rw [dyBar2, scatterNR_getD _ _ _ _ hi, if_pos hmem]
  · intro i hi hmem
    rw [dyBar2, scatterNR_getD _ _ _ _ hi, if_neg hmem]
  · intro ind hind hmem i j
    have h2 := scatterNR_getD redund (fun c => dsol.getD (n + c) 0) nC ind hind
    rw [if_neg hmem] at h2
    simp only [constraintGradOut, dyBar2, Matrix.add_apply, Matrix.smul_apply,
      objectiveGrad, quadGrad, Matrix.vecMulVec_apply, smul_eq_mul, h2]
    ring

/-- Witness for C5 at a concrete 1-variable instance. -/
theorem C5_backward_grads_witness :
    (∀ i j, objectiveGrad ![(3 : ℚ)] [5, 7] i j = 2 * ![(3 : ℚ)] i * [(5 : ℚ), 7].getD (j : ℕ) 0) ∧
    (∀ i, i < 1 → i ∈ ([] : List ℕ) → (dyBar2 [] [5, 7] 1 1).getD i 0 = 0) ∧
    (∀ i, i < 1 → i ∉ ([] : List ℕ) →
      (dyBar2 [] [5, 7] 1 1).getD i 0 = [(5 : ℚ), 7].getD (1 + cntNR [] 0 i) 0) ∧
    (∀ ind, ind < 1 → ind ∉ ([] : List ℕ) → ∀ i j,
      constraintGradOut ![(3 : ℚ)] [5, 7] [] 1 1 [2] ind i j =
        2 * ![(3 : ℚ)] i * [(5 : ℚ), 7].getD (j : ℕ) 0 * [(2 : ℚ)].getD ind 0 +
        ![(3 : ℚ)] i * ![(3 : ℚ)] j * [(5 : ℚ), 7].getD (1 + cntNR [] 0 ind) 0) :=
  C5_backward_grads ![(3 : ℚ)] [5, 7] [] 1 [2]

/-- Counterexample to claim C6 as stated: for H = [[0]], G = [[1]],
G_r = [[0]] (a matvec/rmatvec pair that `make_jac_linop` accepts, and
which the non-recompute call site produces whenever G ≠ G_r), the forward
map is not self-adjoint: rmatvec differs from matvec and
⟨M·u, v⟩ ≠ ⟨u, M·v⟩ at u = (0, 1), v = (1, 0). -/
theorem C6_counterexample :
    jacMatvec (!![(0 : ℚ)]) (!![(1 : ℚ)]) (!![(0 : ℚ)]) (![0], ![1]) ≠
      jacRmatvec (!![(0 : ℚ)]) (!![(1 : ℚ)]) (!![(0 : ℚ)]) (![0], ![1]) ∧
    dot2 (jacMatvec (!![(0 : ℚ)]) (!![(1 : ℚ)]) (!![(0 : ℚ)]) (![0], ![1])) (![1], ![0]) ≠
      dot2 ((![0], ![1]) : (Fin 1 → ℚ) × (Fin 1 → ℚ))
        (jacMatvec (!![(0 : ℚ)]) (!![(1 : ℚ)]) (!![(0 : ℚ)]) (![1], ![0])) := by
  constructor
  · intro h
    have h2 := congrArg (fun pr => pr.1 0) h
    simp only [jacMatvec, jacRmatvec] at h2
    norm_num [Matrix.mulVec, Matrix.dotProduct, Fin.sum_univ_succ] at h2
  · intro h
    simp only [jacMatvec, dot2] at h
    norm_num [Matrix.mulVec, Matrix.dotProduct, Fin.sum_univ_succ] at h

/-- Claim C6 (amended): `make_jac_linop`'s two closures coincide exactly
when G and G_r are the same matrix — the configuration of the
multiplier-recompute call site `make_jac_linop(H=H_r, G=G_r, G_r=G_r)` —
and in that case, for symmetric H, the operator M = 2·[[H, Gᵀ],[G_r, 0]]
is self-adjoint: ⟨M·u, v⟩ = ⟨u, M·v⟩ for all block vectors u, v.  When
G ≠ G_r the operator is rectangular and only ⟨M·u, v⟩ = ⟨u, Mᵀ·v⟩ holds,
with Mᵀ given by rmatvec. -/
theorem C6_jac_selfadjoint {n p : ℕ} (H : Matrix (Fin n) (Fin n) ℚ)
    (G : Matrix (Fin p) (Fin n) ℚ) (u v : (Fin n → ℚ) × (Fin p → ℚ))
    (hH : H.transpose = H) :
    jacRmatvec H G G u = jacMatvec H G G u ∧
    dot2 (jacMatvec H G G u) v = dot2 u (jacMatvec H G G v) := by
  refine ⟨rfl, ?_⟩
  have e1 : Matrix.dotProduct u.1 (H.mulVec v.1) =
      Matrix.dotProduct (H.mulVec u.1) v.1 := by
    rw [Matrix.dotProduct_mulVec, ← Matrix.mulVec_transpose, hH]
  have e2 : Matrix.dotProduct (Gᵀ.mulVec u.2) v.1 =
      Matrix.dotProduct u.2 (G.mulVec v.1) := by
    rw [Matrix.mulVec_transpose, ← Matrix.dotProduct_mulVec]
  have e3 : Matrix.dotProduct (Gᵀ.mulVec v.2) u.1 =
      Matrix.dotProduct v.2 (G.mulVec u.1) := by
    rw [Matrix.mulVec_transpose, ← Matrix.dotProduct_mulVec]
  simp only [dot2, jacMatvec, Matrix.smul_dotProduct, Matrix.dotProduct_smul,
    Matrix.add_dotProduct, Matrix.dotProduct_add, smul_eq_mul]
  rw [e1, ← e2, Matrix.dotProduct_comm (G.mulVec u.1) v.2, ← e3,
    Matrix.dotProduct_comm (Gᵀ.mulVec v.2) u.1]
  ring

/-- Witness for C6 (amended) at concrete symmetric H and G = G_r. -/
theorem C6_jac_selfadjoint_witness :
    jacRmatvec (!![(2 : ℚ)]) (!![(3 : ℚ)]) (!![(3 : ℚ)]) (![1], ![4]) =
      jacMatvec (!![(2 : ℚ)]) (!![(3 : ℚ)]) (!![(3 : ℚ)]) (![1], ![4]) ∧
    dot2 (jacMatvec (!![(2 : ℚ)]) (!![(3 : ℚ)]) (!![(3 : ℚ)]) (![1], ![4])) (![5], ![6]) =
      dot2 ((![1], ![4]) : (Fin 1 → ℚ) × (Fin 1 → ℚ))
        (jacMatvec (!![(2 : ℚ)]) (!![(3 : ℚ)]) (!![(3 : ℚ)]) (![5], ![6])) :=
  C6_jac_selfadjoint (!![(2 : ℚ)]) (!![(3 : ℚ)]) (![1], ![4]) (![5], ![6]) (by decide)

/-- Only the redundancy message is ever raised by the gradient-collection
loop, and it is raised exactly when some parameterized-constraint index
is redundant. -/
theorem collectConstrGrads_spec {M : Type} (redund : List ℕ) (gradFor : ℕ → M) :
    ∀ inds : List ℕ,
      ((∃ ind ∈ inds, ind ∈ redund) ↔
        collectConstrGrads redund gradFor inds = Except.error redundErrMsg) ∧
      (∀ e, collectConstrGrads redund gradFor inds = Except.error e →
        e = redundErrMsg) := by
  intro inds
  induction inds with
  | nil => simp [collectConstrGrads]
  | cons ind rest ih =>
    obtain ⟨ih1, ih2⟩ := ih
    by_cases hmem : ind ∈ redund
    · refine ⟨⟨fun _ => ?_, fun _ => ⟨ind, List.mem_cons_self ind rest, hmem⟩⟩, ?_⟩
      · simp [collectConstrGrads, hmem]
      · intro e he
        simp only [collectConstrGrads, hmem, if_true] at he
        exact (Except.error.inj he).symm
    · cases hrec : collectConstrGrads redund gradFor rest with
      | ok gs =>
        refine ⟨⟨?_, ?_⟩, ?_⟩
        · rintro ⟨i, hi, hir⟩
          rcases List.mem_cons.mp hi with h | h
          · exact absurd (h ▸ hir) hmem
          · have := ih1.mp ⟨i, h, hir⟩
            rw [hrec] at this
            exact absurd this (by simp)
        · intro he
          simp [collectConstrGrads, hmem, hrec] at he
        · intro e he
          simp [collectConstrGrads, hmem, hrec] at he
      | error e0 =>
        have he0 : e0 = redundErrMsg := ih2 e0 hrec
        subst he0
        refine ⟨⟨fun _ => ?_, fun _ => ?_⟩, ?_⟩
        · simp [collectConstrGrads, hmem, hrec]
        · obtain ⟨i, hi, hir⟩ := ih1.mpr hrec
          exact ⟨i, List.mem_cons_of_mem ind hi, hir⟩
        · intro e he
          simp only [collectConstrGrads, hmem, if_false, hrec] at he
          exact (Except.error.inj he).symm

/-- Claim C7: whenever a gradient is requested for a parameterized
constraint whose index is redundant, the gradient-collection loop raises
the ValueError; it never returns a gradient list (zero or otherwise) in
that situation. -/
theorem C7_redundant_raises {M : Type} (objParam : Bool) (objGrad : M)
    (redund : List ℕ) (gradFor : ℕ → M) (inds : List ℕ) :
    ((∃ ind ∈ inds, ind ∈ redund) ↔
      collectParamGrads objParam objGrad redund gradFor inds =
        Except.error redundErrMsg) ∧
    (∀ ind ∈ inds, ind ∈ redund →
      ∀ gs, collectParamGrads objParam objGrad redund gradFor inds ≠
        Except.ok gs) := by
  obtain ⟨h1, _⟩ := collectConstrGrads_spec redund gradFor inds
  constructor
  · rw [h1]
    cases hrec : collectConstrGrads redund gradFor inds with
    | ok gs => simp [collectParamGrads, hrec]
    | error e => simp [collectParamGrads, hrec]
  · intro ind hind hmem gs
    have herr := h1.mp ⟨ind, hind, hmem⟩
    simp [collectParamGrads, herr]

/-- Witness for C7: a single parameterized constraint with index 0 listed
as redundant. -/
theorem C7_redundant_raises_witness :
    ((∃ ind ∈ [0], ind ∈ [0]) ↔
      collectParamGrads true (0 : ℚ) [0] (fun _ => 0) [0] =
        Except.error redundErrMsg) ∧
    (∀ ind ∈ [0], ind ∈ [0] →
      ∀ gs, collectParamGrads true (0 : ℚ) [0] (fun _ => 0) [0] ≠
        Except.ok gs) :=
  C7_redundant_raises true (0 : ℚ) [0] (fun _ => 0) [0]

/-- Claim C8 fails on the code: in the MOSEK path every symbolic parameter
slot is assigned `param_vals_h[i]` with `i` the stale index left over from
the dimension-check loop, i.e. the LAST caller-supplied value — not its
own value.  With two parameter slots holding [[0]] and [[1]], slot 0
receives [[1]]. -/
theorem C8_assignment_bug :
    mosekAssignParams [!![(0 : ℚ)], !![(1 : ℚ)]] (!![(0 : ℚ)]) =
      [!![(1 : ℚ)], !![(1 : ℚ)]] ∧
    mosekAssignParams [!![(0 : ℚ)], !![(1 : ℚ)]] (!![(0 : ℚ)]) ≠
      [!![(0 : ℚ)], !![(1 : ℚ)]] := by
  constructor
  · decide
  · decide

/-- Claim C10: `__init__` overwrites the `None` entries of the caller's
own constraints list with parameter placeholders (the list is stored and
mutated by reference; `initConstrList` returns the contents the caller's
list object holds afterwards).  The processed list contains no `None`
entry, the number of constraint parameter slots equals the number of
`None` entries, and running the constructor again on the same (already
mutated) list creates zero constraint parameter slots. -/
theorem C10_constructor_mutation {M : Type} (l : List (PyConstrEntry M)) :
    PyConstrEntry.pynone ∉ (initConstrList l).1 ∧
    (initConstrList l).2 = l.countP isPyNone ∧
    initConstrList ((initConstrList l).1) = ((initConstrList l).1, 0) := by
  induction l with
  | nil => simp [initConstrList]
  | cons e rest ih =>
    obtain ⟨ih1, ih2, ih3⟩ := ih
    cases e with
    | pynone =>
      refine ⟨?_, ?_, ?_⟩
      · simp only [initConstrList, List.mem_cons]
        rintro (h | h)
        · exact PyConstrEntry.noConfusion h
        · exact ih1 h
      · simp [initConstrList, List.countP_cons, isPyNone, ih2]
      · simp only [initConstrList]
        rw [Prod.ext_iff] at ih3 ⊢
        exact ⟨by simp [ih3.1], by simp [ih3.2]⟩
    | pyparam =>
      refine ⟨?_, ?_, ?_⟩
      · simp only [initConstrList, List.mem_cons]
        rintro (h | h)
        · exact PyConstrEntry.noConfusion h
        · exact ih1 h
      · simp [initConstrList, List.countP_cons, isPyNone, ih2]
      · simp only [initConstrList]
        rw [Prod.ext_iff] at ih3 ⊢
        exact ⟨by simp [ih3.1], by simp [ih3.2]⟩
    | pymat A =>
      refine ⟨?_, ?_, ?_⟩
      · simp only [initConstrList, List.mem_cons]
        rintro (h | h)
        · exact PyConstrEntry.noConfusion h
        · exact ih1 h
      · simp [initConstrList, List.countP_cons, isPyNone, ih2]
      · simp only [initConstrList]
        rw [Prod.ext_iff] at ih3 ⊢
        exact ⟨by simp [ih3.1], by simp [ih3.2]⟩

/-- Witness for C10 on a concrete two-entry list. -/
theorem C10_constructor_mutation_witness :
    PyConstrEntry.pynone ∉ (initConstrList [PyConstrEntry.pynone, PyConstrEntry.pymat (3 : ℚ)]).1 ∧
    (initConstrList [PyConstrEntry.pynone, PyConstrEntry.pymat (3 : ℚ)]).2 =
      [PyConstrEntry.pynone, PyConstrEntry.pymat (3 : ℚ)].countP isPyNone ∧
    initConstrList ((initConstrList [PyConstrEntry.pynone, PyConstrEntry.pymat (3 : ℚ)]).1) =
      ((initConstrList [PyConstrEntry.pynone, PyConstrEntry.pymat (3 : ℚ)]).1, 0) :=
  C10_constructor_mutation [PyConstrEntry.pynone, PyConstrEntry.pymat (3 : ℚ)]

/-- Claim C9: for an m×n matrix `A` factored by pivoted economic QR as
A[:, p c] = (Qm·R)[:, c] (external `scipy.linalg.qr`; `Z` is the external
triangular-solve output with R11·Z = R12, and in exact arithmetic the rows
of R below the numerical rank vanish), `get_nullspace` with the default
qrp method computes the rank as the count of absolute diagonal entries of
R exceeding the tolerance, returns a basis with exactly n − rank rows,
un-permutes it to the original column ordering, and the basis satisfies
A·basisᵀ = 0. -/
theorem C9_nullspace (m k n : ℕ) (A Qm R Z : ℕ → ℕ → ℚ) (p pinv : ℕ → ℕ) (tol : ℚ)
    (hk : k ≤ n)
    (hp : ∀ c, c < n → p c < n)
    (hpinv : ∀ c, c < n → pinv (p c) = c)
    (hpinv2 : ∀ c, c < n → pinv c < n ∧ p (pinv c) = c)
    (hA : ∀ i, i < m → ∀ c, c < n →
      A i (p c) = ∑ t ∈ Finset.range k, Qm i t * R t c)
    (hZ : ∀ i, i < qrpRank k R tol → ∀ j, j < n - qrpRank k R tol →
      ∑ t ∈ Finset.range (qrpRank k R tol), R i t * Z t j =
        R i (qrpRank k R tol + j))
    (hRlow : ∀ i, qrpRank k R tol ≤ i → i < k → ∀ c, c < n → R i c = 0) :
    (get_nullspace k n R Z pinv tol).rows = n - qrpRank k R tol ∧
    (∀ j, j < n - qrpRank k R tol → ∀ c, c < n →
      (get_nullspace k n R Z pinv tol).basis j (p c) = nullN (qrpRank k R tol) Z c j) ∧
    (∀ i, i < m → ∀ j, j < (get_nullspace k n R Z pinv tol).rows →
      ∑ c ∈ Finset.range n, A i c * (get_nullspace k n R Z pinv tol).basis j c = 0) := by
  set r := qrpRank k R tol with hr
  have hrk : r ≤ k := by
    rw [hr, qrpRank]
    exact le_trans (Finset.card_filter_le _ _) (by simp)
  have hrn : r ≤ n := le_trans hrk hk
  refine ⟨rfl, ?_, ?_⟩
  · intro j hj c hc
    simp only [get_nullspace]
    rw [hpinv c hc]
  · intro i hi j hj
    have hj' : j < n - r := by simpa [get_nullspace] using hj
    have hrj : r + j < n := by omega
    have hbasis : ∀ c, (get_nullspace k n R Z pinv tol).basis j c =
        nullN r Z (pinv c) j := fun c => rfl
    have inner : ∀ t, t < k →
        ∑ d ∈ Finset.range n, R t d * nullN r Z d j = 0 := by
      intro t ht
      rw [Finset.range_eq_Ico, ← Finset.sum_Ico_consecutive _ (Nat.zero_le r) hrn]
      have hfirst : ∑ d ∈ Finset.Ico 0 r, R t d * nullN r Z d j =
          ∑ d ∈ Finset.range r, R t d * Z d j := by
        rw [← Finset.range_eq_Ico]
        refine Finset.sum_congr rfl (fun d hd => ?_)
        have hdr := Finset.mem_range.mp hd
        simp only [nullN]
        rw [if_pos hdr]
      have hsecond : ∑ d ∈ Finset.Ico r n, R t d * nullN r Z d j =
          -(R t (r + j)) := by
        rw [Finset.sum_eq_single_of_mem (r + j)
          (Finset.mem_Ico.mpr ⟨Nat.le_add_right r j, hrj⟩)]
        · simp only [nullN]
          rw [if_neg (by omega)]
          simp
        · intro d hd hne
          have hd' := Finset.mem_Ico.mp hd
          simp only [nullN]
          rw [if_neg (by omega), if_neg hne]
          ring
      rw [hfirst, hsecond]
      by_cases htr : t < r
      · rw [hZ t htr j hj']
        ring
      · have h0 : ∀ d, d < n → R t d = 0 :=
          fun d hd => hRlow t (by omega) ht d hd
        rw [h0 (r + j) hrj]
        rw [Finset.sum_eq_zero
          (fun d hd => by rw [h0 d (lt_of_lt_of_le (Finset.mem_range.mp hd) hrn)]; ring)]
        ring
    calc ∑ c ∈ Finset.range n, A i c * (get_nullspace k n R Z pinv tol).basis j c
        = ∑ d ∈ Finset.range n, A i (p d) * nullN r Z d j := by
          refine Finset.sum_nbij' pinv p ?_ ?_ ?_ ?_ ?_
          · intro c hc
            exact Finset.mem_range.mpr (hpinv2 c (Finset.mem_range.mp hc)).1
          · intro d hd
            exact Finset.mem_range.mpr (hp d (Finset.mem_range.mp hd))
          · intro c hc
            exact (hpinv2 c (Finset.mem_range.mp hc)).2
          · intro d hd
            exact hpinv d (Finset.mem_range.mp hd)
          · intro c hc
            rw [hbasis c, (hpinv2 c (Finset.mem_range.mp hc)).2]
      _ = ∑ d ∈ Finset.range n, (∑ t ∈ Finset.range k, Qm i t * R t d) * nullN r Z d j := by
          refine Finset.sum_congr rfl (fun d hd => ?_)
          rw [hA i hi d (Finset.mem_range.mp hd)]
      _ = ∑ t ∈ Finset.range k, ∑ d ∈ Finset.range n, Qm i t * (R t d * nullN r Z d j) := by
          rw [Finset.sum_comm]
          refine Finset.sum_congr rfl (fun d hd => ?_)
          rw [Finset.sum_mul]
          refine Finset.sum_congr rfl (fun t ht => ?_)
          ring
      _ = 0 := by
          refine Finset.sum_eq_zero (fun t ht => ?_)
          rw [← Finset.mul_sum, inner t (Finset.mem_range.mp ht)]
          ring

/-- Witness for C9: the 2×2 all-ones matrix (rank 1) with its exact
pivoted QR data; the basis has one row (1, -1) and annihilates A. -/
theorem C9_nullspace_witness :
    (get_nullspace 2 2 Rwit Zwit (fun c => c) (1 / 2)).rows =
      2 - qrpRank 2 Rwit (1 / 2) ∧
    (∀ j, j < 2 - qrpRank 2 Rwit (1 / 2) → ∀ c, c < 2 →
      (get_nullspace 2 2 Rwit Zwit (fun c => c) (1 / 2)).basis j ((fun c => c) c) =
        nullN (qrpRank 2 Rwit (1 / 2)) Zwit c j) ∧
    (∀ i, i < 2 → ∀ j, j < (get_nullspace 2 2 Rwit Zwit (fun c => c) (1 / 2)).rows →
      ∑ c ∈ Finset.range 2, Awit i c *
        (get_nullspace 2 2 Rwit Zwit (fun c => c) (1 / 2)).basis j c = 0) :=
  C9_nullspace 2 2 2 Awit Qwit Rwit Zwit (fun c => c) (fun c => c) (1 / 2)
    (by decide) (by decide) (by decide) (by decide)
    (by with_unfolding_all decide) (by with_unfolding_all decide)
    (by with_unfolding_all decide)

end SDPR
